import Mathlib

/-!
Verification of the indexed data-access and search layer of the
`new-vn-provinces` library: the text normalizer (`normalizeText`), the
index builders (`createSearchIndex`, `createIdMap`, `createHierarchicalMap`),
the memoizer (`memoize`), the cached lookup/search accessors, and the fuzzy
matching engine (`fuzzyMatch`, `fuzzySearchProvinces` / `Districts` /
`Communes`, `universalFuzzySearch`).

Strings are modelled as `List Char`; JavaScript numbers are modelled as `ℚ`
(all scores in this code are small exact decimal fractions).  JS-specific
semantics that matter are modelled explicitly:
  * `x || d` on numbers coalesces `0` (falsy) to the default `d`;
  * `Map` iteration is in insertion order; `Map.get` on a missing key is
    `undefined` (modelled as `Option`/`getD`);
  * `"".split(/\s+/)` is `[""]`, and leading separators produce an empty
    first chunk;
  * `Array.prototype.sort` with comparator `(a,b) => b.score - a.score` is a
    stable descending sort by score, modelled by a stable insertion sort.
-/

/- Batteries marks the `Rat` arithmetic operations `@[irreducible]`, which
blocks `decide` on concrete score computations; restore the kernel's view. -/
set_option allowUnsafeReducibility true in
attribute [semireducible] Rat.mul Rat.inv Rat.add Rat.sub

namespace VnProvinces

abbrev Str := List Char

/-- Whitespace as matched by the `\s`-based splitting and `trim` in the
source (the dataset only ever contains plain spaces). -/
def isWsChar (c : Char) : Bool := c = ' ' || c = '\t' || c = '\n' || c = '\r'

/-- Uppercase Vietnamese accented letters (source: `remove-accents` /
`String.prototype.toLowerCase`, restricted to the Vietnamese alphabet,
which is the domain of the dataset's names). -/
def viUpper : Str := "ÀÁẢÃẠĂẰẮẲẴẶÂẦẤẨẪẬĐÈÉẺẼẸÊỀẾỂỄỆÌÍỈĨỊÒÓỎÕỌÔỒỐỔỖỘƠỜỚỞỠỢÙÚỦŨỤƯỪỨỬỮỰỲÝỶỸỴ".toList

/-- Their lowercase forms. -/
def viLower : Str := "àáảãạăằắẳẵặâầấẩẫậđèéẻẽẹêềếểễệìíỉĩịòóỏõọôồốổỗộơờớởỡợùúủũụưừứửữựỳýỷỹỵ".toList

/-- Their accent-stripped base forms. -/
def viBase : Str := "aaaaaaaaaaaaaaaaadeeeeeeeeeeeiiiiiooooooooooooooooouuuuuuuuuuuyyyyy".toList

def asciiUpper : Str := "ABCDEFGHIJKLMNOPQRSTUVWXYZ".toList

def asciiLower : Str := "abcdefghijklmnopqrstuvwxyz".toList

/-- Character table for `toLowerCase`. -/
def lowerTable : List (Char × Char) := asciiUpper.zip asciiLower ++ viUpper.zip viLower

/-- Character table for `removeAccents`. -/
def accentTable : List (Char × Char) := viLower.zip viBase

def applyCharTable (t : List (Char × Char)) (c : Char) : Char := (t.lookup c).getD c

def toLowerChar : Char → Char := applyCharTable lowerTable

def deAccentChar : Char → Char := applyCharTable accentTable

/-- `String.prototype.trim`. -/
def trimChars (l : Str) : Str := ((l.dropWhile isWsChar).reverse.dropWhile isWsChar).reverse

/-- `normalizeText` (src/utils): `removeAccents(text.toLowerCase().trim())`. -/
def normalizeText (s : Str) : Str := (trimChars (s.map toLowerChar)).map deAccentChar

/-- `String.prototype.split(/\s+/)`, as a state machine: `acc` is the chunk
being read (reversed) and `inWs` records being inside a whitespace run (the
chunk was already emitted; a run at the very end emits a final `""`). -/
def splitWsGo : Str → Str → Bool → List Str
  | [], acc, inWs => if inWs then [[]] else [acc.reverse]
  | c :: rest, acc, inWs =>
    if isWsChar c then
      if inWs then splitWsGo rest acc true
      else acc.reverse :: splitWsGo rest [] true
    else splitWsGo rest (c :: acc) false

/-- `String.prototype.split(/\s+/)`: an empty string yields `[""]`, a leading
separator yields an empty first chunk, maximal whitespace runs separate. -/
def splitWs (l : Str) : List Str := splitWsGo l [] false

/-- `String.prototype.includes`: contiguous-substring test. -/
def isSubstr : Str → Str → Bool
  | sub, [] => sub.isEmpty
  | sub, c :: rest => sub.isPrefixOf (c :: rest) || isSubstr sub rest

/-- One pass of the Levenshtein DP row computation: given the previous row's
tail (`up`-stream), the diagonal cell and the cell to the left, produce the
cells of the current row for the remaining characters of `str1`. -/
def levGo (c2 : Char) : Str → List ℕ → ℕ → ℕ → List ℕ
  | [], _, _, _ => []
  | _ :: _, [], _, _ => []
  | c1 :: cs, up :: prest, diag, left =>
    let cur := min (left + 1) (min (up + 1) (diag + (if c1 = c2 then 0 else 1)))
    cur :: levGo c2 cs prest up cur

/-- `levenshteinDistance` (src/features/fuzzy.ts): full-matrix DP, row by row;
`matrix[0][i] = i`, `matrix[j][0] = j`. -/
def levenshteinDistance (s1 s2 : Str) : ℕ :=
  let row0 := List.range (s1.length + 1)
  let lastRow := s2.foldl (fun prev c2 =>
    let j := prev.headD 0 + 1
    j :: levGo c2 s1 prev.tail (prev.headD 0) j) row0
  lastRow.getLastD 0

/-- `calculateSimilarity`: normalized Levenshtein similarity. -/
def calculateSimilarity (s1 s2 : Str) : ℚ :=
  if s1 = s2 then 1
  else
    let maxLength := max s1.length s2.length
    if maxLength = 0 then 1
    else 1 - (levenshteinDistance s1 s2 : ℚ) / (maxLength : ℚ)

/-- First unmatched index `j` of `s2` in the window `[start, stop)` whose
character equals `c1` (the inner loop of the Jaro match pass). -/
def jwFindJ (c1 : Char) (s2 : Str) (used : List Bool) (start stop : ℕ) : Option ℕ :=
  (List.range' start (stop - start)).find? fun j =>
    used.getD j true = false && s2.getD j ' ' = c1

/-- The Jaro match pass over the indexed characters of `s1`: returns the match
flags for `s1` and the updated used-flags for `s2`. -/
def jwMatchesGo (s2 : Str) (mw : ℕ) : List (ℕ × Char) → List Bool → List Bool × List Bool
  | [], used => ([], used)
  | (i, c1) :: rest, used =>
    let start := i - mw
    let stop := min (i + mw + 1) s2.length
    match jwFindJ c1 s2 used start stop with
    | some j =>
      let r := jwMatchesGo s2 mw rest (used.set j true)
      (true :: r.1, r.2)
    | none =>
      let r := jwMatchesGo s2 mw rest used
      (false :: r.1, r.2)

/-- Length of the common prefix, capped by the fuel (4 in Jaro-Winkler). -/
def pfxCount : Str → Str → ℕ → ℕ
  | a :: as, b :: bs, fuel + 1 => if a = b then 1 + pfxCount as bs fuel else 0
  | _, _, _ => 0

/-- `jaroWinklerSimilarity` (src/features/fuzzy.ts).  The `matchWindow < 0`
early return of the source (possible since JS subtraction can go negative)
is the `max len1 len2 / 2 = 0` branch here. -/
def jaroWinklerSimilarity (s1 s2 : Str) : ℚ :=
  if s1 = s2 then 1
  else
    let len1 := s1.length
    let len2 := s2.length
    if len1 = 0 || len2 = 0 then 0
    else if max len1 len2 / 2 = 0 then 0
    else
      let mw := max len1 len2 / 2 - 1
      let r := jwMatchesGo s2 mw s1.enum (List.replicate len2 false)
      let mcount := r.1.count true
      if mcount = 0 then 0
      else
        let mc1 := ((s1.zip r.1).filter fun p => p.2).map fun p => p.1
        let mc2 := ((s2.zip r.2).filter fun p => p.2).map fun p => p.1
        let t : ℚ := (((mc1.zip mc2).filter fun p => decide (p.1 ≠ p.2)).length : ℕ)
        let m : ℚ := (mcount : ℕ)
        let jaro := (m / (len1 : ℚ) + m / (len2 : ℚ) + (m - t / 2) / m) / 3
        let pfx : ℚ := (pfxCount s1 s2 4 : ℕ)
        jaro + (1 / 10) * pfx * (1 - jaro)

/-- `FuzzySearchOptions` (src/features/fuzzy.ts).  Optional JS fields are
`Option`s; `none` is `undefined`.  (`includeScore` is declared but never read
by the source, so it is omitted.) -/
structure FuzzySearchOptions where
  threshold : Option ℚ := none
  maxResults : Option ℕ := none
  caseSensitive : Bool := false
  exactMatchBonus : Option ℚ := none
  prefixMatchBonus : Option ℚ := none
  wordMatchBonus : Option ℚ := none
deriving DecidableEq

/-- JS `x || d` for an optional number: `undefined` and `0` are falsy and
give the default `d`; every other number (including negatives) is itself. -/
def orNum (x : Option ℚ) (d : ℚ) : ℚ :=
  match x with
  | some v => if v = 0 then d else v
  | none => d

/-- JS `x || d` for an optional count. -/
def orNat (x : Option ℕ) (d : ℕ) : ℕ :=
  match x with
  | some v => if v = 0 then d else v
  | none => d

inductive MatchType
  | exact
  | prefixM
  | word
  | fuzzy
deriving DecidableEq

/-- The number of query words having some target word in a mutual-prefix
relation with them (the `wordMatches` counter of `fuzzyMatch`: the inner loop
breaks at the first matching target word, so each query word counts once). -/
def wordMatchCount (queryWords targetWords : List Str) : ℕ :=
  (queryWords.filter fun qw =>
    targetWords.any fun tw => tw.isPrefixOf qw || qw.isPrefixOf tw).length

/-- The word-rule score of `fuzzyMatch`:
`(wordMatches / max(queryWords.length, targetWords.length)) * 0.8 + (options.wordMatchBonus || 0)`. -/
def wordRuleScore (nq nt : Str) (options : FuzzySearchOptions) : ℚ :=
  let targetWords := splitWs nt
  let queryWords := splitWs nq
  ((wordMatchCount queryWords targetWords : ℚ) /
      ((max queryWords.length targetWords.length : ℕ) : ℚ)) * (8 / 10) +
    orNum options.wordMatchBonus 0

/-- The normalization `fuzzyMatch` applies to its two arguments:
`options.caseSensitive ? s : normalizeText(s)`. -/
def fmNorm (s : Str) (options : FuzzySearchOptions) : Str :=
  if options.caseSensitive then s else normalizeText s

/-- `fuzzyMatch` (src/features/fuzzy.ts): exact, then prefix, then word, then
the Levenshtein/Jaro-Winkler blend — first applicable rule wins. -/
def fuzzyMatch (query target : Str) (options : FuzzySearchOptions) : ℚ × MatchType :=
  let normalizedQuery := fmNorm query options
  let normalizedTarget := fmNorm target options
  if normalizedQuery = normalizedTarget then
    (1 + orNum options.exactMatchBonus 0, .exact)
  else if normalizedQuery.isPrefixOf normalizedTarget then
    (9 / 10 + orNum options.prefixMatchBonus 0, .prefixM)
  else if 0 < wordMatchCount (splitWs normalizedQuery) (splitWs normalizedTarget) then
    (wordRuleScore normalizedQuery normalizedTarget options, .word)
  else
    (calculateSimilarity normalizedQuery normalizedTarget * (6 / 10) +
      jaroWinklerSimilarity normalizedQuery normalizedTarget * (4 / 10), .fuzzy)

/-- One entry of a fuzzy search result list.  In the source each result also
carries a one-element `matches` array `[{field: 'name', value: item.name,
score, type}]` duplicating the score and type recorded here. -/
structure FuzzyResult (T : Type) where
  item : T
  score : ℚ
  matchType : MatchType
deriving DecidableEq

/-- Stable insertion of `x` behind every element with score `≥ x.score`
(ties keep earlier elements first). -/
def insertByScoreDesc {T : Type} (x : FuzzyResult T) : List (FuzzyResult T) → List (FuzzyResult T)
  | [] => [x]
  | y :: ys => if x.score ≤ y.score then y :: insertByScoreDesc x ys else x :: y :: ys

/-- `results.sort((a, b) => b.score - a.score)`: a stable descending sort by
score, modelled as a stable insertion sort. -/
def sortByScoreDesc {T : Type} (l : List (FuzzyResult T)) : List (FuzzyResult T) :=
  l.foldl (fun acc x => insertByScoreDesc x acc) []

/-- The common body of `fuzzySearchProvinces` / `Districts` / `Communes`:
score every record's name, keep scores `≥ threshold`, sort descending,
truncate.  `defaultMax` is the level's literal default (50 or 100). -/
def fuzzySearchCore {T : Type} (nameOf : T → Str) (defaultMax : ℕ) (data : List T)
    (query : Str) (options : FuzzySearchOptions) : List (FuzzyResult T) :=
  let threshold := orNum options.threshold (3 / 10)
  let maxResults := orNat options.maxResults defaultMax
  let results := (data.map fun r =>
      let nameMatch := fuzzyMatch query (nameOf r) options
      FuzzyResult.mk r nameMatch.1 nameMatch.2).filter fun x =>
    decide (threshold ≤ x.score)
  (sortByScoreDesc results).take maxResults

/-- `Province` record: `{idProvince, name}`. -/
structure Province where
  idProvince : Str
  name : Str
deriving DecidableEq

/-- `District` record: `{idDistrict, idProvince, name}`. -/
structure District where
  idDistrict : Str
  idProvince : Str
  name : Str
deriving DecidableEq

/-- `Commune` record: `{idCommune, idDistrict, name}`. -/
structure Commune where
  idCommune : Str
  idDistrict : Str
  name : Str
deriving DecidableEq

/-- `Ward` record (2-level schema variant): `{idWard, idProvince, name}`. -/
structure Ward where
  idWard : Str
  idProvince : Str
  name : Str
deriving DecidableEq

/-- `fuzzySearchProvinces`, with the loaded province dataset passed
explicitly (the source obtains it from the lazy cache); default
`maxResults` 50. -/
def fuzzySearchProvinces (data : List Province) (query : Str)
    (options : FuzzySearchOptions) : List (FuzzyResult Province) :=
  fuzzySearchCore Province.name 50 data query options

/-- `fuzzySearchDistricts`; default `maxResults` 50. -/
def fuzzySearchDistricts (data : List District) (query : Str)
    (options : FuzzySearchOptions) : List (FuzzyResult District) :=
  fuzzySearchCore District.name 50 data query options

/-- `fuzzySearchCommunes`; default `maxResults` 100 (the source's literal,
unlike the 50 of the other two levels). -/
def fuzzySearchCommunes (data : List Commune) (query : Str)
    (options : FuzzySearchOptions) : List (FuzzyResult Commune) :=
  fuzzySearchCore Commune.name 100 data query options

/-! ### Index builders (src/utils) and cached accessors (src/cache) -/

/-- JS `Map.set`: replace in place when the key exists (keeping its
position), else append at the end. -/
def mapSet {V : Type} (m : List (Str × V)) (k : Str) (v : V) : List (Str × V) :=
  match m with
  | [] => [(k, v)]
  | (k', v') :: rest => if k' = k then (k', v) :: rest else (k', v') :: mapSet rest k v

/-- The `if (!index.has(key)) index.set(key, []); index.get(key)!.push(item)`
pattern of `createSearchIndex` and `createHierarchicalMap`: push `v` onto the
bucket of `k`, creating the bucket at the end of the map when missing. -/
def pushAt {V : Type} (m : List (Str × List V)) (k : Str) (v : V) : List (Str × List V) :=
  match m with
  | [] => [(k, [v])]
  | (k', l) :: rest => if k' = k then (k', l ++ [v]) :: rest else (k', l) :: pushAt rest k v

/-- The body of `createSearchIndex`'s `forEach`: insert one record under its
full normalized name, under each of its words of length > 1, and under every
prefix of length 2 .. full length (`for i = 2; i <= normalized.length`). -/
def indexStep {T : Type} (nameOf : T → Str) (index : List (Str × List T)) (item : T) :
    List (Str × List T) :=
  let normalized := normalizeText (nameOf item)
  let words := splitWs normalized
  let index := pushAt index normalized item
  let index := words.foldl (fun ix w => if 1 < w.length then pushAt ix w item else ix) index
  (List.range' 2 (normalized.length - 1)).foldl
    (fun ix i => pushAt ix (normalized.take i) item) index

/-- `createSearchIndex` (src/utils): for each record insert its full
normalized name, each word of length > 1, and every prefix of length 2 ..
full length, as keys mapping to the records that produced them.  The JS
`Map` (iterated in insertion order) is an association list here. -/
def createSearchIndex {T : Type} (nameOf : T → Str) (items : List T) : List (Str × List T) :=
  items.foldl (indexStep nameOf) []

/-- The list a key maps to in an index (`[]` when the key is absent). -/
def bucketOf {T : Type} (index : List (Str × List T)) (k : Str) : List T :=
  (index.lookup k).getD []

/-- How many times a record occurs in the list a key maps to. -/
def occCount {T : Type} [DecidableEq T] (index : List (Str × List T)) (k : Str) (x : T) : ℕ :=
  (bucketOf index k).count x

/-- How many of the keys generated for one record equal `k`: one for the
full normalized name if it is `k`, one per word of length > 1 equal to `k`,
and one per prefix (lengths 2 .. full) equal to `k`. -/
def recordKeyCount {T : Type} (nameOf : T → Str) (item : T) (k : Str) : ℕ :=
  let n := normalizeText (nameOf item)
  (if n = k then 1 else 0) +
    ((splitWs n).filter fun w => 1 < w.length).count k +
    ((List.range' 2 (n.length - 1)).map fun i => n.take i).count k

/-- `createIdMap` (src/utils): ID → record, last write wins. -/
def createIdMap {T : Type} (idOf : T → Str) (items : List T) : List (Str × T) :=
  items.foldl (fun m it => mapSet m (idOf it) it) []

/-- `createHierarchicalMap` (src/utils): parent ID → list of children in
input order. -/
def createHierarchicalMap {T : Type} (parentOf : T → Str) (items : List T) : List (Str × List T) :=
  items.foldl (fun m it => pushAt m (parentOf it) it) []

/-- JS `Set.prototype.add`: append when not already present. -/
def setAdd {T : Type} [DecidableEq T] (acc : List T) (x : T) : List T :=
  if x ∈ acc then acc else acc ++ [x]

/-- The common body of `searchProvinces` / `searchDistricts` /
`searchCommunes` / `searchWards` (src/cache): every index entry whose key
contains the normalized query — or is contained in it — contributes its
records to an insertion-ordered `Set`.  The lazily-built per-level index is
the deterministic `createSearchIndex` of the level's dataset. -/
def searchByName {T : Type} [DecidableEq T] (nameOf : T → Str) (data : List T)
    (query : Str) : List T :=
  let index := createSearchIndex nameOf data
  let normalizedQuery := normalizeText query
  (index.filter fun e => isSubstr normalizedQuery e.1 || isSubstr e.1 normalizedQuery).foldl
    (fun results e => e.2.foldl setAdd results) []

/-- `searchProvinces` (src/cache/index.ts and the 3-level cache). -/
def searchProvinces (data : List Province) (query : Str) : List Province :=
  searchByName Province.name data query

/-- `searchDistricts` (3-level cache). -/
def searchDistricts (data : List District) (query : Str) : List District :=
  searchByName District.name data query

/-- `searchCommunes` (3-level cache). -/
def searchCommunes (data : List Commune) (query : Str) : List Commune :=
  searchByName Commune.name data query

/-- `searchWards` (src/cache/index.ts, 2-level schema). -/
def searchWards (data : List Ward) (query : Str) : List Ward :=
  searchByName Ward.name data query

/-- `getProvinceById` (cache): `provinceIdMap.get(id)`. -/
def getProvinceById (data : List Province) (id : Str) : Option Province :=
  (createIdMap Province.idProvince data).lookup id

/-- `getDistrictById` (3-level cache). -/
def getDistrictById (data : List District) (id : Str) : Option District :=
  (createIdMap District.idDistrict data).lookup id

/-- `getCommuneById` (3-level cache). -/
def getCommuneById (data : List Commune) (id : Str) : Option Commune :=
  (createIdMap Commune.idCommune data).lookup id

/-- `getWardById` (src/cache/index.ts). -/
def getWardById (data : List Ward) (id : Str) : Option Ward :=
  (createIdMap Ward.idWard data).lookup id

/-- `getDistrictsByProvinceId` (3-level cache):
`districtsByProvinceMap.get(provinceId) || []`. -/
def getDistrictsByProvinceId (data : List District) (provinceId : Str) : List District :=
  ((createHierarchicalMap District.idProvince data).lookup provinceId).getD []

/-- `getCommunesByDistrictId` (3-level cache):
`communesByDistrictMap.get(districtId) || []`. -/
def getCommunesByDistrictId (data : List Commune) (districtId : Str) : List Commune :=
  ((createHierarchicalMap Commune.idDistrict data).lookup districtId).getD []

/-- `getWardsByProvinceId` (src/cache/index.ts):
`wardsByProvinceMap.get(provinceId) || []`. -/
def getWardsByProvinceId (data : List Ward) (provinceId : Str) : List Ward :=
  ((createHierarchicalMap Ward.idProvince data).lookup provinceId).getD []

/-! ### Memoizer (src/utils `memoize`) -/

/-- One call of a `memoize(fn)` wrapper: the cache is keyed by the
serialization of the arguments (`JSON.stringify(args)`, abstracted as
`ser`); on a miss the result is computed and appended. -/
def memoStep {α β : Type} (f : α → β) (ser : α → String) (st : List (String × β))
    (x : α) : β × List (String × β) :=
  match st.lookup (ser x) with
  | some v => (v, st)
  | none => (f x, st ++ [(ser x, f x)])

/-- A sequence of calls to the same `memoize(fn)` wrapper, threading the
cache; returns the observed results and the final cache.  Each cache entry
records one invocation of the underlying `fn`. -/
def memoRun {α β : Type} (f : α → β) (ser : α → String) :
    List α → List (String × β) → List β × List (String × β)
  | [], st => ([], st)
  | x :: xs, st =>
    let r := memoStep f ser st x
    let rest := memoRun f ser xs r.2
    (r.1 :: rest.1, rest.2)

/-- The invariant of a `memoize(fn)` cache: every entry was produced by an
invocation of `fn` (key = serialized argument, value = its result), and no
serialized key occurs twice. -/
def MemoInv {α β : Type} (f : α → β) (ser : α → String) (st : List (String × β)) : Prop :=
  (∀ p ∈ st, ∃ y, p.1 = ser y ∧ p.2 = f y) ∧ (st.map Prod.fst).Nodup

/-! ### `universalFuzzySearch` (src/features/fuzzy.ts) -/

inductive RegionType
  | province
  | district
  | commune
deriving DecidableEq

inductive SortBy
  | score
  | name
  | relevance
deriving DecidableEq

/-- `AdvancedSearchOptions`: the fuzzy options plus `filters` and `sortBy`
(the unused `searchFields`/`groupBy` fields are omitted). -/
structure AdvancedSearchOptions extends FuzzySearchOptions where
  filterProvinceId : Option Str := none
  filterDistrictId : Option Str := none
  filterType : Option RegionType := none
  sortBy : Option SortBy := none

/-- A combined-result item: a record of any of the three levels. -/
inductive AnyItem
  | prov (p : Province)
  | dist (d : District)
  | comm (c : Commune)
deriving DecidableEq

def AnyItem.name : AnyItem → Str
  | .prov p => p.name
  | .dist d => d.name
  | .comm c => c.name

/-- One entry of the combined result list: the per-level result plus the
`type` tag the source spreads in. -/
structure CombinedResult where
  item : AnyItem
  score : ℚ
  matchType : MatchType
  rtype : RegionType
deriving DecidableEq

/-- Generic stable insertion: `x` goes behind every prefix element `y` with
`after x y` (stable sorts place a later element behind an equal earlier
one).  For a JS comparator `c`, `after x y = (c x y ≥ 0)`. -/
def insStable {α : Type} (after : α → α → Bool) (x : α) : List α → List α
  | [] => [x]
  | y :: ys => if after x y then y :: insStable after x ys else x :: y :: ys

/-- Stable sort (as JS `Array.prototype.sort`) for comparator-induced
placement predicate `after`. -/
def sortStable {α : Type} (after : α → α → Bool) (l : List α) : List α :=
  l.foldl (fun acc x => insStable after x acc) []

/-- Code-point lexicographic order on names; models
`localeCompare(…, 'vi')` (collation details do not matter for the claims
proved here, only that some total comparator is used). -/
def lexLt : Str → Str → Bool
  | [], [] => false
  | [], _ :: _ => true
  | _ :: _, [] => false
  | a :: as, b :: bs => if a < b then true else if b < a then false else lexLt as bs

/-- `typeOrder = { province: 3, district: 2, commune: 1 }`. -/
def typeOrder : RegionType → ℕ
  | .province => 3
  | .district => 2
  | .commune => 1

/-- The shape of `universalFuzzySearch`'s return value. -/
structure UniversalResult where
  provinces : List (FuzzyResult Province)
  districts : List (FuzzyResult District)
  communes : List (FuzzyResult Commune)
  combined : List CombinedResult

/-- `universalFuzzySearch`: per-level fuzzy searches (the advanced options
object is passed to each), parent-ID and type filters, then the combined
list sorted by the selected policy and truncated to `maxResults || 50`. -/
def universalFuzzySearch (pData : List Province) (dData : List District)
    (cData : List Commune) (query : Str) (options : AdvancedSearchOptions) :
    UniversalResult :=
  let provinces := fuzzySearchProvinces pData query options.toFuzzySearchOptions
  let districts := fuzzySearchDistricts dData query options.toFuzzySearchOptions
  let communes := fuzzySearchCommunes cData query options.toFuzzySearchOptions
  let filteredDistricts := match options.filterProvinceId with
    | some pid => districts.filter fun d => d.item.idProvince = pid
    | none => districts
  let filteredCommunes := match options.filterProvinceId with
    | some pid =>
      let validDistrictIds :=
        (districts.filter fun d => d.item.idProvince = pid).map fun d => d.item.idDistrict
      communes.filter fun c => validDistrictIds.contains c.item.idDistrict
    | none => communes
  let filteredCommunes := match options.filterDistrictId with
    | some did => communes.filter fun c => c.item.idDistrict = did
    | none => filteredCommunes
  let filteredProvinces := provinces
  let t3 : List (FuzzyResult Province) × List (FuzzyResult District) × List (FuzzyResult Commune) :=
    match options.filterType with
    | some .province => (filteredProvinces, [], [])
    | some .district => ([], filteredDistricts, [])
    | some .commune => ([], [], filteredCommunes)
    | none => (filteredProvinces, filteredDistricts, filteredCommunes)
  let combined :=
    (t3.1.map fun p => CombinedResult.mk (.prov p.item) p.score p.matchType .province) ++
    (t3.2.1.map fun d => CombinedResult.mk (.dist d.item) d.score d.matchType .district) ++
    (t3.2.2.map fun c => CombinedResult.mk (.comm c.item) c.score c.matchType .commune)
  let combinedSorted := match options.sortBy with
    | some .name => sortStable (fun x y : CombinedResult => !lexLt x.item.name y.item.name) combined
    | some .relevance => sortStable (fun x y : CombinedResult =>
        if x.score = y.score then decide (typeOrder x.rtype ≤ typeOrder y.rtype)
        else decide (x.score ≤ y.score)) combined
    | _ => sortStable (fun x y : CombinedResult => decide (x.score ≤ y.score)) combined
  { provinces := t3.1
    districts := t3.2.1
    communes := t3.2.2
    combined := combinedSorted.take (orNat options.maxResults 50) }

/-! ### General lemmas -/

theorem normalizeText_hanoi :
    normalizeText "Thành phố Hà Nội".toList = "thanh pho ha noi".toList := by decide

theorem insStable_length {α : Type} (after : α → α → Bool) (x : α) (l : List α) :
    (insStable after x l).length = l.length + 1 := by
  induction l with
  | nil => rfl
  | cons y ys ih =>
    by_cases h : after x y = true <;> simp [insStable, h, ih]

theorem sortStable_go_length {α : Type} (after : α → α → Bool) (l acc : List α) :
    (l.foldl (fun acc x => insStable after x acc) acc).length = acc.length + l.length := by
  induction l generalizing acc with
  | nil => rfl
  | cons x xs ih => simp [List.foldl_cons, ih, insStable_length]; omega

theorem sortStable_length {α : Type} (after : α → α → Bool) (l : List α) :
    (sortStable after l).length = l.length := by
  simpa using sortStable_go_length after l []

theorem mem_insStable {α : Type} (after : α → α → Bool) (x y : α) (l : List α) :
    y ∈ insStable after x l ↔ y = x ∨ y ∈ l := by
  induction l with
  | nil => simp [insStable]
  | cons z zs ih =>
    by_cases h : after x z = true <;> simp [insStable, h, ih] <;> tauto

theorem mem_sortStable_go {α : Type} (after : α → α → Bool) (l acc : List α) (y : α) :
    y ∈ l.foldl (fun acc x => insStable after x acc) acc ↔ y ∈ acc ∨ y ∈ l := by
  induction l generalizing acc with
  | nil => simp
  | cons x xs ih => simp [List.foldl_cons, ih, mem_insStable]; tauto

theorem mem_sortStable {α : Type} (after : α → α → Bool) (l : List α) (y : α) :
    y ∈ sortStable after l ↔ y ∈ l := by
  simpa using mem_sortStable_go after l [] y

theorem sortByScoreDesc_eq_sortStable {T : Type} (l : List (FuzzyResult T)) :
    sortByScoreDesc l = sortStable (fun x y => decide (x.score ≤ y.score)) l := by
  have h : ∀ (x : FuzzyResult T) (acc : List (FuzzyResult T)),
      insertByScoreDesc x acc = insStable (fun x y => decide (x.score ≤ y.score)) x acc := by
    intro x acc
    induction acc with
    | nil => rfl
    | cons y ys ih => by_cases hxy : x.score ≤ y.score <;> simp [insertByScoreDesc, insStable, hxy, ih]
  simp only [sortByScoreDesc, sortStable]
  exact List.foldl_ext _ _ _ fun acc x _ => h x acc

theorem length_filter_mono {α : Type} (p q : α → Bool) (l : List α)
    (h : ∀ a ∈ l, p a = true → q a = true) :
    (l.filter p).length ≤ (l.filter q).length := by
  induction l with
  | nil => simp
  | cons a as ih =>
    have ih' := ih fun a ha => h a (List.mem_cons_of_mem _ ha)
    by_cases hp : p a = true
    · have hq := h a (List.mem_cons_self a as) hp
      simp [List.filter_cons, hp, hq]
      omega
    · simp only [Bool.not_eq_true] at hp
      by_cases hq : q a = true <;> simp [List.filter_cons, hp, hq] <;> omega

/-- The length of a per-level fuzzy search result. -/
theorem fuzzySearchCore_length {T : Type} (nameOf : T → Str) (dm : ℕ) (data : List T)
    (query : Str) (options : FuzzySearchOptions) :
    (fuzzySearchCore nameOf dm data query options).length =
      min (orNat options.maxResults dm)
        (((data.map fun r =>
            let nameMatch := fuzzyMatch query (nameOf r) options
            FuzzyResult.mk r nameMatch.1 nameMatch.2).filter fun x =>
          decide (orNum options.threshold (3 / 10) ≤ x.score)).length) := by
  simp [fuzzySearchCore, List.length_take, sortByScoreDesc_eq_sortStable, sortStable_length]

theorem orNat_some_of_ne_zero {k d : ℕ} (hk : k ≠ 0) : orNat (some k) d = k := by
  simp [orNat, hk]

theorem orNum_some_of_ne_zero {q d : ℚ} (hq : q ≠ 0) : orNum (some q) d = q := by
  simp [orNum, hq]

/-- `fuzzyMatch` reads only `caseSensitive` and the three bonuses, so the
`threshold`/`maxResults` fields are irrelevant to it. -/
theorem fuzzyMatch_threshold_irrel (q t : Str) (o : FuzzySearchOptions) (x : Option ℚ) :
    fuzzyMatch q t { o with threshold := x } = fuzzyMatch q t o := rfl

theorem fuzzySearchCore_threshold_mono {T : Type} (nameOf : T → Str) (dm : ℕ) (data : List T)
    (q : Str) (o : FuzzySearchOptions) (t1 t2 : ℚ) (h1 : 0 < t1) (h12 : t1 ≤ t2) :
    (fuzzySearchCore nameOf dm data q { o with threshold := some t2 }).length ≤
      (fuzzySearchCore nameOf dm data q { o with threshold := some t1 }).length := by
  have e1 : orNum (some t1) (3 / 10) = t1 := orNum_some_of_ne_zero (ne_of_gt h1)
  have e2 : orNum (some t2) (3 / 10) = t2 := orNum_some_of_ne_zero (ne_of_gt (lt_of_lt_of_le h1 h12))
  simp only [fuzzySearchCore_length, fuzzyMatch_threshold_irrel, e1, e2]
  refine min_le_min (Nat.le_refl _) ?_
  refine length_filter_mono _ _ _ fun a _ h => ?_
  simp only [decide_eq_true_eq] at h ⊢
  exact le_trans h12 h

/-- C1 (amended).  For strictly positive thresholds `0 < t1 ≤ t2`, with the
query, dataset and remaining options fixed, the fuzzy search with threshold
`t2` returns at most as many results as with threshold `t1`.  (Strict
positivity is required: a threshold of `0` is falsy in JS and is replaced by
the default `0.3` by `options.threshold || 0.3`.) -/
theorem fuzzySearch_threshold_monotone (pD : List Province) (dD : List District)
    (cD : List Commune) (q : Str) (o : FuzzySearchOptions) (t1 t2 : ℚ)
    (h1 : 0 < t1) (h12 : t1 ≤ t2) :
    (fuzzySearchProvinces pD q { o with threshold := some t2 }).length ≤
        (fuzzySearchProvinces pD q { o with threshold := some t1 }).length ∧
      (fuzzySearchDistricts dD q { o with threshold := some t2 }).length ≤
        (fuzzySearchDistricts dD q { o with threshold := some t1 }).length ∧
      (fuzzySearchCommunes cD q { o with threshold := some t2 }).length ≤
        (fuzzySearchCommunes cD q { o with threshold := some t1 }).length :=
  ⟨fuzzySearchCore_threshold_mono _ 50 pD q o t1 t2 h1 h12,
    fuzzySearchCore_threshold_mono _ 50 dD q o t1 t2 h1 h12,
    fuzzySearchCore_threshold_mono _ 100 cD q o t1 t2 h1 h12⟩

/-- Witness for C1's amended theorem at a concrete input. -/
theorem fuzzySearch_threshold_monotone_witness :
    (fuzzySearchProvinces [⟨"01".toList, "ha noi".toList⟩] "ha".toList
          { threshold := some (2 / 10) }).length ≤
        (fuzzySearchProvinces [⟨"01".toList, "ha noi".toList⟩] "ha".toList
          { threshold := some (1 / 10) }).length ∧
      (fuzzySearchDistricts [] "ha".toList { threshold := some (2 / 10) }).length ≤
        (fuzzySearchDistricts [] "ha".toList { threshold := some (1 / 10) }).length ∧
      (fuzzySearchCommunes [] "ha".toList { threshold := some (2 / 10) }).length ≤
        (fuzzySearchCommunes [] "ha".toList { threshold := some (1 / 10) }).length :=
  fuzzySearch_threshold_monotone [⟨"01".toList, "ha noi".toList⟩] [] [] "ha".toList {}
    (1 / 10) (2 / 10) (by decide) (by decide)

/-- Counterexample to C1 as stated.  With the single province named `"cab"`
and query `"abc"`, the fuzzy fallback score is exactly `0.2`.  Thresholds
`t1 = 0 ≤ t2 = 0.2` are both `≥ 0`, yet threshold `t2` returns one result
while `t1` returns zero: `options.threshold || 0.3` turns the falsy `0` into
`0.3`, which filters the `0.2`-scored record out. -/
theorem fuzzySearch_threshold_monotone_cex :
    (0 : ℚ) ≤ 0 ∧ (0 : ℚ) ≤ 2 / 10 ∧ (0 : ℚ) ≤ 2 / 10 ∧
      ¬ ((fuzzySearchProvinces [⟨"p1".toList, "cab".toList⟩] "abc".toList
            { threshold := some (2 / 10) }).length ≤
          (fuzzySearchProvinces [⟨"p1".toList, "cab".toList⟩] "abc".toList
            { threshold := some 0 }).length) := by
  decide

theorem fuzzySearchCore_le_orNat {T : Type} (nameOf : T → Str) (dm : ℕ) (data : List T)
    (q : Str) (o : FuzzySearchOptions) :
    (fuzzySearchCore nameOf dm data q o).length ≤ orNat o.maxResults dm := by
  rw [fuzzySearchCore_length]
  exact Nat.min_le_left _ _

/-- C2 (amended).  For `k ≥ 1`, a per-level fuzzy search with
`maxResults = k` returns at most `k` results, and so does the combined list
of `universalFuzzySearch`.  (`k ≥ 1` is required: `maxResults = 0` is falsy
in JS and is replaced by the level default by `options.maxResults || 50`.) -/
theorem fuzzySearch_maxResults_bound (pD : List Province) (dD : List District)
    (cD : List Commune) (q : Str) (o : FuzzySearchOptions) (ao : AdvancedSearchOptions)
    (k : ℕ) (hk : 1 ≤ k) (ho : o.maxResults = some k) (hao : ao.maxResults = some k) :
    (fuzzySearchProvinces pD q o).length ≤ k ∧
      (fuzzySearchDistricts dD q o).length ≤ k ∧
      (fuzzySearchCommunes cD q o).length ≤ k ∧
      (universalFuzzySearch pD dD cD q ao).combined.length ≤ k := by
  have hk' : k ≠ 0 := Nat.one_le_iff_ne_zero.mp hk
  refine ⟨?_, ?_, ?_, ?_⟩
  · simpa [fuzzySearchProvinces, ho, orNat_some_of_ne_zero hk'] using
      fuzzySearchCore_le_orNat Province.name 50 pD q o
  · simpa [fuzzySearchDistricts, ho, orNat_some_of_ne_zero hk'] using
      fuzzySearchCore_le_orNat District.name 50 dD q o
  · simpa [fuzzySearchCommunes, ho, orNat_some_of_ne_zero hk'] using
      fuzzySearchCore_le_orNat Commune.name 100 cD q o
  · simp only [universalFuzzySearch, hao, orNat_some_of_ne_zero hk']
    exact List.length_take_le _ _

/-- Witness for C2's amended theorem at a concrete input. -/
theorem fuzzySearch_maxResults_bound_witness :
    (fuzzySearchProvinces [⟨"01".toList, "ha noi".toList⟩] "ha".toList
          { maxResults := some 1 }).length ≤ 1 ∧
      (fuzzySearchDistricts [] "ha".toList { maxResults := some 1 }).length ≤ 1 ∧
      (fuzzySearchCommunes [] "ha".toList { maxResults := some 1 }).length ≤ 1 ∧
      (universalFuzzySearch [⟨"01".toList, "ha noi".toList⟩] [] [] "ha".toList
          { maxResults := some 1 }).combined.length ≤ 1 :=
  fuzzySearch_maxResults_bound [⟨"01".toList, "ha noi".toList⟩] [] [] "ha".toList
    { maxResults := some 1 } { maxResults := some 1 } 1 (by decide) rfl rfl

/-- Counterexample to C2 as stated: with `maxResults = 0` (a natural number)
and one matching record, the search returns one result, not at most `0` —
`options.maxResults || 50` turns the falsy `0` into the default. -/
theorem fuzzySearch_maxResults_bound_cex :
    ¬ ((fuzzySearchProvinces [⟨"p1".toList, "ab".toList⟩] "ab".toList
          { maxResults := some 0 }).length ≤ 0) := by
  decide

theorem fuzzySearchCore_threshold_none {T : Type} (nameOf : T → Str) (dm : ℕ)
    (data : List T) (q : Str) (o : FuzzySearchOptions) (h : o.threshold = none) :
    fuzzySearchCore nameOf dm data q o =
      fuzzySearchCore nameOf dm data q { o with threshold := some (3 / 10) } := by
  have h310 : (3 / 10 : ℚ) ≠ 0 := by norm_num
  simp [fuzzySearchCore, fuzzyMatch_threshold_irrel, h, orNum, h310]

/-- C3 (amended).  For all three levels, an omitted `threshold` behaves as
the explicit default `0.3`; with an omitted `maxResults`, provinces and
districts return at most 50 results, while communes return at most **100**
(the source's default for `fuzzySearchCommunes` is 100, not the 50 claimed). -/
theorem fuzzySearch_default_options (pD : List Province) (dD : List District)
    (cD : List Commune) (q : Str) (o : FuzzySearchOptions) :
    (o.threshold = none →
      fuzzySearchProvinces pD q o = fuzzySearchProvinces pD q { o with threshold := some (3 / 10) } ∧
        fuzzySearchDistricts dD q o = fuzzySearchDistricts dD q { o with threshold := some (3 / 10) } ∧
        fuzzySearchCommunes cD q o = fuzzySearchCommunes cD q { o with threshold := some (3 / 10) }) ∧
    (o.maxResults = none →
      (fuzzySearchProvinces pD q o).length ≤ 50 ∧
        (fuzzySearchDistricts dD q o).length ≤ 50 ∧
        (fuzzySearchCommunes cD q o).length ≤ 100) := by
  constructor
  · intro h
    exact ⟨fuzzySearchCore_threshold_none _ 50 pD q o h,
      fuzzySearchCore_threshold_none _ 50 dD q o h,
      fuzzySearchCore_threshold_none _ 100 cD q o h⟩
  · intro h
    refine ⟨?_, ?_, ?_⟩
    · simpa [fuzzySearchProvinces, h, orNat] using fuzzySearchCore_le_orNat Province.name 50 pD q o
    · simpa [fuzzySearchDistricts, h, orNat] using fuzzySearchCore_le_orNat District.name 50 dD q o
    · simpa [fuzzySearchCommunes, h, orNat] using fuzzySearchCore_le_orNat Commune.name 100 cD q o

/-- Witness for C3's amended theorem at a concrete input. -/
theorem fuzzySearch_default_options_witness :
    (fuzzySearchProvinces [⟨"01".toList, "ha noi".toList⟩] "ha".toList {} =
        fuzzySearchProvinces [⟨"01".toList, "ha noi".toList⟩] "ha".toList
          { threshold := some (3 / 10) } ∧
      fuzzySearchDistricts [] "ha".toList {} =
        fuzzySearchDistricts [] "ha".toList { threshold := some (3 / 10) } ∧
      fuzzySearchCommunes [] "ha".toList {} =
        fuzzySearchCommunes [] "ha".toList { threshold := some (3 / 10) }) ∧
    ((fuzzySearchProvinces [⟨"01".toList, "ha noi".toList⟩] "ha".toList {}).length ≤ 50 ∧
      (fuzzySearchDistricts [] "ha".toList {}).length ≤ 50 ∧
      (fuzzySearchCommunes [] "ha".toList {}).length ≤ 100) :=
  ⟨(fuzzySearch_default_options [⟨"01".toList, "ha noi".toList⟩] [] [] "ha".toList {}).1 rfl,
    (fuzzySearch_default_options [⟨"01".toList, "ha noi".toList⟩] [] [] "ha".toList {}).2 rfl⟩

/-- Counterexample to C3 as stated: with `maxResults` omitted and 51
communes all named `"ab"` matching the query `"ab"` exactly,
`fuzzySearchCommunes` returns 51 results — its default truncation is 100,
not the claimed 50. -/
theorem fuzzySearch_default_options_cex :
    ¬ ((fuzzySearchCommunes (List.replicate 51 ⟨"x".toList, "y".toList, "ab".toList⟩)
          "ab".toList {}).length ≤ 50) := by
  decide

/-! ### Association-list (JS `Map`) lemmas -/

theorem lookup_mem {κ V : Type} [BEq κ] [LawfulBEq κ] (m : List (κ × V)) (k : κ) (v : V)
    (h : m.lookup k = some v) : (k, v) ∈ m := by
  induction m with
  | nil => simp [List.lookup] at h
  | cons p rest ih =>
    obtain ⟨k', v'⟩ := p
    by_cases hk : k == k'
    · simp only [List.lookup, hk, cond_true] at h
      obtain rfl : v' = v := by injection h
      have hkk : k = k' := eq_of_beq hk
      subst hkk
      exact List.mem_cons_self _ _
    · simp only [List.lookup, hk, cond_false] at h
      exact List.mem_cons_of_mem _ (ih h)

theorem lookup_eq_none_iff {κ V : Type} [BEq κ] [LawfulBEq κ] (m : List (κ × V)) (k : κ) :
    m.lookup k = none ↔ ∀ p ∈ m, p.1 ≠ k := by
  induction m with
  | nil => simp [List.lookup]
  | cons p rest ih =>
    obtain ⟨k', v'⟩ := p
    by_cases hk : k = k'
    · subst hk
      simp [List.lookup]
    · have hbeq : (k == k') = false := beq_false_of_ne hk
      simp only [List.lookup, hbeq, cond_false, ih, List.mem_cons]
      constructor
      · rintro h p (rfl | hp)
        · exact fun he => hk he.symm
        · exact h p hp
      · intro h p hp
        exact h p (Or.inr hp)

theorem lookup_mapSet {V : Type} (m : List (Str × V)) (k : Str) (v : V) (id : Str) :
    (mapSet m k v).lookup id = if id = k then some v else m.lookup id := by
  induction m with
  | nil =>
    by_cases h : id = k
    · simp [mapSet, List.lookup, h]
    · simp [mapSet, List.lookup, h, beq_false_of_ne h]
  | cons p rest ih =>
    obtain ⟨k', v'⟩ := p
    by_cases hk : k' = k
    · subst hk
      by_cases h : id = k'
      · simp [mapSet, List.lookup, h]
      · simp [mapSet, List.lookup, h, beq_false_of_ne h]
    · by_cases h : id = k'
      · subst h
        have : ¬ id = k := fun he => hk (by rw [← he])
        simp [mapSet, hk, List.lookup, this]
      · simp [mapSet, hk, List.lookup, beq_false_of_ne h, ih]

theorem lookup_pushAt {V : Type} (m : List (Str × List V)) (k : Str) (v : V) (id : Str) :
    (pushAt m k v).lookup id =
      if id = k then some (((m.lookup k).getD []) ++ [v]) else m.lookup id := by
  induction m with
  | nil =>
    by_cases h : id = k
    · simp [pushAt, List.lookup, h]
    · simp [pushAt, List.lookup, h, beq_false_of_ne h]
  | cons p rest ih =>
    obtain ⟨k', l'⟩ := p
    by_cases hk : k' = k
    · subst hk
      by_cases h : id = k'
      · simp [pushAt, List.lookup, h]
      · simp [pushAt, List.lookup, h, beq_false_of_ne h]
    · by_cases h : id = k'
      · subst h
        have h2 : ¬ id = k := fun he => hk (by rw [← he])
        have h3 : (k == id) = false := beq_false_of_ne fun he => hk he.symm
        simp [pushAt, hk, List.lookup, h2, h3]
      · have h3 : (k == k') = false := beq_false_of_ne fun he => hk he.symm
        simp [pushAt, hk, List.lookup, beq_false_of_ne h, ih, h3]

theorem foldl_mapSet_lookup {T : Type} (idOf : T → Str) (id : Str) :
    ∀ (items : List T) (m : List (Str × T)), id ∉ items.map idOf →
      (items.foldl (fun m it => mapSet m (idOf it) it) m).lookup id = m.lookup id := by
  intro items
  induction items with
  | nil => intro m _; rfl
  | cons it rest ih =>
    intro m h
    have hid : id ≠ idOf it := fun he => h (by simp [he])
    have hrest : id ∉ rest.map idOf := fun hr => h (by simp [hr])
    rw [List.foldl_cons, ih _ hrest, lookup_mapSet]
    simp [hid]

theorem lookup_createIdMap_of_not_mem {T : Type} (idOf : T → Str) (items : List T)
    (id : Str) (h : id ∉ items.map idOf) :
    (createIdMap idOf items).lookup id = none :=
  (foldl_mapSet_lookup idOf id items [] h).trans rfl

theorem foldl_pushAt_lookup {T : Type} (parentOf : T → Str) (id : Str) :
    ∀ (items : List T) (m : List (Str × List T)), id ∉ items.map parentOf →
      (items.foldl (fun m it => pushAt m (parentOf it) it) m).lookup id = m.lookup id := by
  intro items
  induction items with
  | nil => intro m _; rfl
  | cons it rest ih =>
    intro m h
    have hid : id ≠ parentOf it := fun he => h (by simp [he])
    have hrest : id ∉ rest.map parentOf := fun hr => h (by simp [hr])
    rw [List.foldl_cons, ih _ hrest, lookup_pushAt]
    simp [hid]

theorem lookup_createHierarchicalMap_of_not_mem {T : Type} (parentOf : T → Str)
    (items : List T) (id : Str) (h : id ∉ items.map parentOf) :
    (createHierarchicalMap parentOf items).lookup id = none :=
  (foldl_pushAt_lookup parentOf id items [] h).trans rfl

/-- C9.  `getById` on an ID not present in a level (of any shape) returns the
absence marker `undefined`/`none` — the lookups are total, so no exception
can be raised — and `getChildren` on an unknown parent ID returns the empty
list rather than an absence marker. -/
theorem getById_getChildren_notFound (pd : List Province) (dd : List District)
    (cd : List Commune) (wd : List Ward) (idp idd idc idw pidD didC pidW : Str) :
    (idp ∉ pd.map Province.idProvince → getProvinceById pd idp = none) ∧
      (idd ∉ dd.map District.idDistrict → getDistrictById dd idd = none) ∧
      (idc ∉ cd.map Commune.idCommune → getCommuneById cd idc = none) ∧
      (idw ∉ wd.map Ward.idWard → getWardById wd idw = none) ∧
      (pidD ∉ dd.map District.idProvince → getDistrictsByProvinceId dd pidD = []) ∧
      (didC ∉ cd.map Commune.idDistrict → getCommunesByDistrictId cd didC = []) ∧
      (pidW ∉ wd.map Ward.idProvince → getWardsByProvinceId wd pidW = []) :=
  ⟨fun h => by simp [getProvinceById, lookup_createIdMap_of_not_mem _ _ _ h],
    fun h => by simp [getDistrictById, lookup_createIdMap_of_not_mem _ _ _ h],
    fun h => by simp [getCommuneById, lookup_createIdMap_of_not_mem _ _ _ h],
    fun h => by simp [getWardById, lookup_createIdMap_of_not_mem _ _ _ h],
    fun h => by simp [getDistrictsByProvinceId, lookup_createHierarchicalMap_of_not_mem _ _ _ h],
    fun h => by simp [getCommunesByDistrictId, lookup_createHierarchicalMap_of_not_mem _ _ _ h],
    fun h => by simp [getWardsByProvinceId, lookup_createHierarchicalMap_of_not_mem _ _ _ h]⟩

/-- Witness for C9 at a concrete input: a one-record dataset per level and
the unknown ID `"999"`. -/
theorem getById_getChildren_notFound_witness :
    ("999".toList ∉ [(⟨"01".toList, "ha noi".toList⟩ : Province)].map Province.idProvince ∧
      getProvinceById [⟨"01".toList, "ha noi".toList⟩] "999".toList = none) ∧
      (getDistrictsByProvinceId [⟨"001".toList, "01".toList, "ba dinh".toList⟩] "999".toList = [] ∧
        getCommunesByDistrictId [⟨"00001".toList, "001".toList, "phuc xa".toList⟩] "999".toList = [] ∧
        getWardsByProvinceId [⟨"00004".toList, "01".toList, "truc bach".toList⟩] "999".toList = []) := by
  have h := getById_getChildren_notFound [⟨"01".toList, "ha noi".toList⟩]
    [⟨"001".toList, "01".toList, "ba dinh".toList⟩]
    [⟨"00001".toList, "001".toList, "phuc xa".toList⟩]
    [⟨"00004".toList, "01".toList, "truc bach".toList⟩]
    "999".toList "999".toList "999".toList "999".toList "999".toList "999".toList "999".toList
  exact ⟨⟨by decide, h.1 (by decide)⟩,
    h.2.2.2.2.1 (by decide), h.2.2.2.2.2.1 (by decide), h.2.2.2.2.2.2 (by decide)⟩

/-! ### C7: memoization -/

theorem memoRun_general {α β : Type} (f : α → β) (ser : α → String)
    (hser : ∀ y z, ser y = ser z → f y = f z) :
    ∀ (xs : List α) (st : List (String × β)), MemoInv f ser st →
      (memoRun f ser xs st).1 = xs.map f ∧ MemoInv f ser (memoRun f ser xs st).2 := by
  intro xs
  induction xs with
  | nil => intro st hst; exact ⟨rfl, hst⟩
  | cons x rest ih =>
    intro st hst
    cases hl : st.lookup (ser x) with
    | some v =>
      have hmem := lookup_mem st (ser x) v hl
      obtain ⟨y, hy1, hy2⟩ := hst.1 _ hmem
      simp only at hy1 hy2
      have hv : v = f x := by
        rw [hy2]
        exact hser y x hy1.symm
      have hrec := ih st hst
      simp only [memoRun, memoStep, hl]
      exact ⟨by simp [hrec.1, hv], hrec.2⟩
    | none =>
      have hfresh : ser x ∉ st.map Prod.fst := by
        intro hmem
        obtain ⟨p, hp, hp1⟩ := List.mem_map.mp hmem
        exact ((lookup_eq_none_iff st (ser x)).mp hl) p hp hp1
      have hst' : MemoInv f ser (st ++ [(ser x, f x)]) := by
        constructor
        · intro p hp
          rcases List.mem_append.mp hp with h | h
          · exact hst.1 p h
          · simp only [List.mem_singleton] at h
            exact ⟨x, by simp [h]⟩
        · simpa [List.nodup_append, hst.2] using hfresh
      have hrec := ih (st ++ [(ser x, f x)]) hst'
      simp only [memoRun, memoStep, hl]
      exact ⟨by simp [hrec.1], hrec.2⟩

/-- C7.  Memoization transparency: provided arguments that serialize to the
same key have the same result (true of pure functions under an injective
serialization such as `JSON.stringify` on a string argument), every call in
any sequence of calls to the same memoized wrapper returns exactly `f`
applied to its argument, and the underlying `f` is invoked at most once per
serialized key: every invocation appends one cache entry keyed by the
serialization, and the cache keys stay duplicate-free. -/
theorem memoize_transparency {α β : Type} (f : α → β) (ser : α → String)
    (hser : ∀ y z, ser y = ser z → f y = f z) (xs : List α) :
    (memoRun f ser xs []).1 = xs.map f ∧
      (((memoRun f ser xs []).2).map Prod.fst).Nodup :=
  ⟨(memoRun_general f ser hser xs [] ⟨by simp, by simp⟩).1,
    (memoRun_general f ser hser xs [] ⟨by simp, by simp⟩).2.2⟩

/-- Witness for C7 at a concrete input: `f = Bool.not` memoized over a
repeated call sequence. -/
theorem memoize_transparency_witness :
    (memoRun Bool.not (fun b => if b then "t" else "f") [true, true, false] []).1 =
        [true, true, false].map Bool.not ∧
      (((memoRun Bool.not (fun b => if b then "t" else "f") [true, true, false] []).2).map
          Prod.fst).Nodup :=
  memoize_transparency Bool.not (fun b => if b then "t" else "f") (by decide)
    [true, true, false]

/-! ### C8: the word rule of `fuzzyMatch` -/

theorem fuzzyMatch_word_rule_general (q t : Str) (o : FuzzySearchOptions)
    (h1 : fmNorm q o ≠ fmNorm t o)
    (h2 : (fmNorm q o).isPrefixOf (fmNorm t o) = false)
    (h3 : 0 < wordMatchCount (splitWs (fmNorm q o)) (splitWs (fmNorm t o))) :
    fuzzyMatch q t o = (wordRuleScore (fmNorm q o) (fmNorm t o) o, .word) := by
  simp only [fuzzyMatch, if_neg h1, h2, Bool.false_eq_true, if_false, if_pos h3]

/-- C8.  `fuzzyMatch` applies its rules in priority order: whenever the
normalized query is neither equal to nor a prefix of the normalized target
and at least one query word is in a mutual-prefix relation with a target
word, the result is the word rule's:
`(matchedWords / max(queryWords, targetWords)) × 0.8 + wordMatchBonus` with
type `word`.  In particular `fuzzyMatch("Ha Noi", "Thành phố Hà Nội", {})`
is `word` with score `0.4 = (2 / 4) × 0.8`, inside `[0.3, 0.9)`. -/
theorem fuzzyMatch_word_rule :
    (∀ (q t : Str) (o : FuzzySearchOptions),
        fmNorm q o ≠ fmNorm t o →
        (fmNorm q o).isPrefixOf (fmNorm t o) = false →
        0 < wordMatchCount (splitWs (fmNorm q o)) (splitWs (fmNorm t o)) →
        fuzzyMatch q t o = (wordRuleScore (fmNorm q o) (fmNorm t o) o, .word)) ∧
      fuzzyMatch "Ha Noi".toList "Thành phố Hà Nội".toList {} = (2 / 5, .word) ∧
      (3 / 10 : ℚ) ≤ 2 / 5 ∧ (2 / 5 : ℚ) < 9 / 10 :=
  ⟨fuzzyMatch_word_rule_general, by decide, by decide, by decide⟩

/-- Witness for C8's universally quantified rule at the concrete
`"Ha Noi"` / `"Thành phố Hà Nội"` input (hypotheses discharged by
computation). -/
theorem fuzzyMatch_word_rule_witness :
    fuzzyMatch "Ha Noi".toList "Thành phố Hà Nội".toList {} =
      (wordRuleScore (fmNorm "Ha Noi".toList {}) (fmNorm "Thành phố Hà Nội".toList {}) {},
        .word) :=
  fuzzyMatch_word_rule.1 "Ha Noi".toList "Thành phố Hà Nội".toList {}
    (by decide) (by decide) (by decide)

/-! ### C10: empty queries score 0.9 via the prefix rule -/

theorem isPrefixOf_nil_left {α : Type} [BEq α] (l : List α) :
    List.isPrefixOf ([] : List α) l = true := by
  cases l <;> rfl

theorem fuzzyMatch_empty_query (q t : Str) (hq : normalizeText q = [])
    (ht : normalizeText t ≠ []) :
    fuzzyMatch q t {} = (9 / 10, .prefixM) := by
  have hne : fmNorm q {} ≠ fmNorm t {} := by
    simp only [fmNorm]
    rw [hq]
    exact fun he => ht he.symm
  have hpre : (fmNorm q {}).isPrefixOf (fmNorm t {}) = true := by
    simp only [fmNorm]
    rw [hq]
    exact isPrefixOf_nil_left _
  simp only [fuzzyMatch, if_neg hne, hpre, if_true, orNum]
  norm_num

theorem length_take_of_le {α : Type} (n : ℕ) (l : List α) :
    (l.take n).length = min n l.length := List.length_take n l

/-- C10.  An empty query (or any query normalizing to the empty string)
against a target with nonempty normalized form hits the prefix rule — every
string starts with the empty string — scoring `0.9` with type `prefix`; a
default-option fuzzy province search with such a query therefore scores
every record at `0.9` and returns `min 50 n` of them (i.e. `maxResults`
records once the dataset has at least 50). -/
theorem fuzzyMatch_empty_query_rule :
    (∀ q t : Str, normalizeText q = [] → normalizeText t ≠ [] →
        fuzzyMatch q t {} = (9 / 10, .prefixM)) ∧
      (∀ (data : List Province) (q : Str), normalizeText q = [] →
        (∀ r ∈ data, normalizeText r.name ≠ []) →
        (∀ x ∈ fuzzySearchProvinces data q {}, x.score = 9 / 10 ∧ x.matchType = .prefixM) ∧
          (fuzzySearchProvinces data q {}).length = min 50 data.length) := by
  refine ⟨fuzzyMatch_empty_query, ?_⟩
  intro data q hq hnames
  have hmap : (data.map fun r =>
      let nameMatch := fuzzyMatch q (Province.name r) {}
      FuzzyResult.mk r nameMatch.1 nameMatch.2) =
      data.map fun r => FuzzyResult.mk r (9 / 10) .prefixM := by
    refine List.map_congr_left fun r hr => ?_
    simp only [fuzzyMatch_empty_query q r.name hq (hnames r hr)]
  have hfilter : ∀ (l : List Province),
      ((l.map fun r => FuzzyResult.mk r (9 / 10) MatchType.prefixM).filter fun x =>
        decide (orNum none (3 / 10) ≤ x.score)) =
        l.map fun r => FuzzyResult.mk r (9 / 10) .prefixM := by
    intro l
    refine List.filter_eq_self.mpr fun a ha => ?_
    obtain ⟨r, _, rfl⟩ := List.mem_map.mp ha
    simp only [orNum, decide_eq_true_eq]
    norm_num
  have E : fuzzySearchProvinces data q {} =
      (sortByScoreDesc (data.map fun r => FuzzyResult.mk r (9 / 10) .prefixM)).take 50 := by
    simp only [fuzzySearchProvinces, fuzzySearchCore]
    rw [hmap, hfilter data]
    rfl
  constructor
  · intro x hx
    rw [E] at hx
    have hx1 := List.take_subset 50 _ hx
    rw [sortByScoreDesc_eq_sortStable, mem_sortStable] at hx1
    obtain ⟨r, _, rfl⟩ := List.mem_map.mp hx1
    exact ⟨rfl, rfl⟩
  · rw [E, List.length_take, sortByScoreDesc_eq_sortStable, sortStable_length,
      List.length_map]

/-- Witness for C10 at a concrete input: the empty query against `"ab"` and
against a one-province dataset. -/
theorem fuzzyMatch_empty_query_rule_witness :
    fuzzyMatch "".toList "ab".toList {} = (9 / 10, .prefixM) ∧
      ((∀ x ∈ fuzzySearchProvinces [⟨"01".toList, "ab".toList⟩] "".toList {},
          x.score = 9 / 10 ∧ x.matchType = .prefixM) ∧
        (fuzzySearchProvinces [⟨"01".toList, "ab".toList⟩] "".toList {}).length =
          min 50 [(⟨"01".toList, "ab".toList⟩ : Province)].length) :=
  ⟨fuzzyMatch_empty_query_rule.1 "".toList "ab".toList (by decide) (by decide),
    fuzzyMatch_empty_query_rule.2 [⟨"01".toList, "ab".toList⟩] "".toList
      (by decide) (by decide)⟩

/-! ### C4: per-key occurrence counts in the search index -/

theorem occCount_pushAt {T : Type} [DecidableEq T] (m : List (Str × List T)) (k : Str)
    (v : T) (k' : Str) (x : T) :
    occCount (pushAt m k v) k' x =
      occCount m k' x + (if k' = k ∧ x = v then 1 else 0) := by
  unfold occCount bucketOf
  rw [lookup_pushAt]
  by_cases h : k' = k
  · subst h
    cases hl : m.lookup k' with
    | none =>
      by_cases hv : x = v <;> simp [hv, List.count_cons]
    | some l =>
      by_cases hv : x = v <;> simp [hv, List.count_append, List.count_cons]
  · simp [h]

theorem occCount_foldl_keys {T : Type} [DecidableEq T] (v : T) (x : T) (k : Str) :
    ∀ (ks : List Str) (m : List (Str × List T)),
      occCount (ks.foldl (fun a κ => pushAt a κ v) m) k x =
        occCount m k x + (if x = v then ks.count k else 0) := by
  intro ks
  induction ks with
  | nil => intro m; simp
  | cons κ rest ih =>
    intro m
    rw [List.foldl_cons, ih, occCount_pushAt]
    by_cases hv : x = v <;> by_cases hk : k = κ <;>
      simp [hv, hk, List.count_cons] <;> omega

theorem foldl_guard_filter {T : Type} (v : T) (p : Str → Prop) [DecidablePred p] :
    ∀ (ws : List Str) (m : List (Str × List T)),
      ws.foldl (fun ix w => if p w then pushAt ix w v else ix) m =
        (ws.filter fun w => decide (p w)).foldl (fun a κ => pushAt a κ v) m := by
  intro ws
  induction ws with
  | nil => intro m; rfl
  | cons w rest ih =>
    intro m
    by_cases h : p w <;> simp [List.foldl_cons, List.filter_cons, h, ih]

theorem occCount_indexStep {T : Type} [DecidableEq T] (nameOf : T → Str)
    (m : List (Str × List T)) (item : T) (k : Str) (x : T) :
    occCount (indexStep nameOf m item) k x =
      occCount m k x + (if x = item then recordKeyCount nameOf item k else 0) := by
  simp only [indexStep, recordKeyCount]
  rw [foldl_guard_filter, ← List.foldl_map (fun i => (normalizeText (nameOf item)).take i)
    (fun a κ => pushAt a κ item), occCount_foldl_keys, occCount_foldl_keys, occCount_pushAt]
  by_cases hv : x = item <;>
    by_cases hk : k = normalizeText (nameOf item) <;>
      simp [hv, hk, eq_comm] <;> omega

theorem occCount_foldl_indexStep {T : Type} [DecidableEq T] (nameOf : T → Str)
    (k : Str) (x : T) :
    ∀ (items : List T) (m : List (Str × List T)),
      occCount (items.foldl (indexStep nameOf) m) k x =
        occCount m k x + items.count x * recordKeyCount nameOf x k := by
  intro items
  induction items with
  | nil => intro m; simp
  | cons it rest ih =>
    intro m
    rw [List.foldl_cons, ih, occCount_indexStep]
    by_cases hv : x = it
    · subst hv
      simp [List.count_cons, Nat.succ_mul]
      omega
    · simp [List.count_cons, hv, beq_false_of_ne hv]

theorem occCount_createSearchIndex {T : Type} [DecidableEq T] (nameOf : T → Str)
    (items : List T) (k : Str) (x : T) :
    occCount (createSearchIndex nameOf items) k x =
      items.count x * recordKeyCount nameOf x k := by
  have h := occCount_foldl_indexStep nameOf k x items []
  simpa [createSearchIndex, occCount, bucketOf, List.lookup] using h

/-- C4 (amended).  In `createSearchIndex`, a record's occurrence count under
a key `k` is (its multiplicity in the input) × (the number of keys its name
generates that equal `k`: full normalized name, words of length > 1, and
prefixes of length ≥ 2).  A record therefore occurs *more* than once under a
key whenever several of its generated keys coincide — e.g. a single-word
name of length 2 is simultaneously the full name, a word, and a prefix. -/
theorem searchIndex_occurrence_count {T : Type} [DecidableEq T] (nameOf : T → Str)
    (items : List T) (k : Str) (x : T) :
    occCount (createSearchIndex nameOf items) k x =
      items.count x * recordKeyCount nameOf x k :=
  occCount_createSearchIndex nameOf items k x

/-- Counterexample to C4 as stated: the single province named `"ab"` occurs
**three** times (not at most once) in the bucket of the key `"ab"` — once as
the full normalized name, once as a word of length 2, and once as the prefix
of length 2. -/
theorem searchIndex_occurrence_count_cex :
    ¬ (occCount (createSearchIndex Province.name [⟨"p1".toList, "ab".toList⟩])
        "ab".toList ⟨"p1".toList, "ab".toList⟩ ≤ 1) := by
  decide

/-! ### C5/C6: `searchByName` membership -/

theorem mem_setAdd {T : Type} [DecidableEq T] (acc : List T) (x y : T) :
    y ∈ setAdd acc x ↔ y ∈ acc ∨ y = x := by
  by_cases h : x ∈ acc
  · simp only [setAdd, if_pos h]
    constructor
    · exact Or.inl
    · rintro (hy | rfl)
      · exact hy
      · exact h
  · simp [setAdd, if_neg h]

theorem setAdd_nodup {T : Type} [DecidableEq T] (acc : List T) (x : T)
    (h : acc.Nodup) : (setAdd acc x).Nodup := by
  by_cases hx : x ∈ acc
  · simpa [setAdd, hx] using h
  · simp [setAdd, hx, List.nodup_append, h]

theorem mem_foldl_setAdd {T : Type} [DecidableEq T] (l : List T) :
    ∀ (acc : List T) (y : T), y ∈ l.foldl setAdd acc ↔ y ∈ acc ∨ y ∈ l := by
  induction l with
  | nil => intro acc y; simp
  | cons x rest ih =>
    intro acc y
    rw [List.foldl_cons, ih, mem_setAdd]
    simp only [List.mem_cons]
    tauto

theorem foldl_setAdd_nodup {T : Type} [DecidableEq T] (l : List T) :
    ∀ acc : List T, acc.Nodup → (l.foldl setAdd acc).Nodup := by
  induction l with
  | nil => intro acc h; exact h
  | cons x rest ih => intro acc h; exact ih _ (setAdd_nodup acc x h)

theorem mem_collect {T : Type} [DecidableEq T] (entries : List (Str × List T)) :
    ∀ (acc : List T) (y : T),
      y ∈ entries.foldl (fun results e => e.2.foldl setAdd results) acc ↔
        y ∈ acc ∨ ∃ e ∈ entries, y ∈ e.2 := by
  induction entries with
  | nil => intro acc y; simp
  | cons e rest ih =>
    intro acc y
    rw [List.foldl_cons, ih, mem_foldl_setAdd]
    simp only [List.mem_cons]
    constructor
    · rintro ((h | h) | ⟨e', he', hy⟩)
      · exact Or.inl h
      · exact Or.inr ⟨e, Or.inl rfl, h⟩
      · exact Or.inr ⟨e', Or.inr he', hy⟩
    · rintro (h | ⟨e', (rfl | he'), hy⟩)
      · exact Or.inl (Or.inl h)
      · exact Or.inl (Or.inr hy)
      · exact Or.inr ⟨e', he', hy⟩

theorem collect_nodup {T : Type} [DecidableEq T] (entries : List (Str × List T)) :
    ∀ acc : List T, acc.Nodup →
      (entries.foldl (fun results e => e.2.foldl setAdd results) acc).Nodup := by
  induction entries with
  | nil => intro acc h; exact h
  | cons e rest ih => intro acc h; exact ih _ (foldl_setAdd_nodup e.2 acc h)

theorem mem_bucket_pushAt {T : Type} (m : List (Str × List T)) (k : Str) (v : T) :
    ∀ e ∈ pushAt m k v, ∀ x ∈ e.2, (∃ e' ∈ m, x ∈ e'.2) ∨ x = v := by
  induction m with
  | nil =>
    rintro e he x hx
    simp only [pushAt, List.mem_singleton] at he
    subst he
    simp only [List.mem_singleton] at hx
    exact Or.inr hx
  | cons p rest ih =>
    obtain ⟨k', l'⟩ := p
    rintro ⟨ek, el⟩ he x hx
    simp only at hx
    by_cases hk : k' = k
    · subst hk
      simp only [pushAt, if_pos rfl] at he
      cases he with
      | head =>
        simp only [List.mem_append, List.mem_singleton] at hx
        rcases hx with hx | hx
        · exact Or.inl ⟨(k', l'), List.mem_cons_self _ _, hx⟩
        · exact Or.inr hx
      | tail _ hmem => exact Or.inl ⟨(ek, el), List.mem_cons_of_mem _ hmem, hx⟩
    · simp only [pushAt, if_neg hk] at he
      cases he with
      | head => exact Or.inl ⟨(k', l'), List.mem_cons_self _ _, hx⟩
      | tail _ hmem =>
        rcases ih (ek, el) hmem x hx with ⟨e', he', hx'⟩ | h
        · exact Or.inl ⟨e', List.mem_cons_of_mem _ he', hx'⟩
        · exact Or.inr h

/-- All records stored anywhere in an index built by `pushAt`-folds over a
key list come from the initial index or are the pushed record. -/
theorem mem_bucket_foldl_keys {T : Type} (v : T) :
    ∀ (ks : List Str) (m : List (Str × List T)),
      ∀ e ∈ ks.foldl (fun a κ => pushAt a κ v) m, ∀ x ∈ e.2,
        (∃ e' ∈ m, x ∈ e'.2) ∨ x = v := by
  intro ks
  induction ks with
  | nil => intro m e he x hx; exact Or.inl ⟨e, he, hx⟩
  | cons κ rest ih =>
    intro m e he x hx
    rcases ih (pushAt m κ v) e he x hx with ⟨e', he', hx'⟩ | h
    · exact mem_bucket_pushAt m κ v e' he' x hx'
    · exact Or.inr h

theorem mem_bucket_indexStep {T : Type} (nameOf : T → Str) (m : List (Str × List T))
    (item : T) : ∀ e ∈ indexStep nameOf m item, ∀ x ∈ e.2,
      (∃ e' ∈ m, x ∈ e'.2) ∨ x = item := by
  intro e he x hx
  simp only [indexStep, foldl_guard_filter] at he
  rw [← List.foldl_map (fun i => (normalizeText (nameOf item)).take i)
    (fun a κ => pushAt a κ item)] at he
  rcases mem_bucket_foldl_keys item _ _ e he x hx with ⟨e1, he1, hx1⟩ | h
  · rcases mem_bucket_foldl_keys item _ _ e1 he1 x hx1 with ⟨e2, he2, hx2⟩ | h
    · exact mem_bucket_pushAt m _ item e2 he2 x hx2
    · exact Or.inr h
  · exact Or.inr h

/-- Soundness of the search index: every record stored under any key of
`createSearchIndex` is one of the input records. -/
theorem mem_bucket_createSearchIndex {T : Type} (nameOf : T → Str) (items : List T) :
    ∀ e ∈ createSearchIndex nameOf items, ∀ x ∈ e.2, x ∈ items := by
  suffices hgen : ∀ (l : List T) (m : List (Str × List T)) (S : T → Prop),
      (∀ e ∈ m, ∀ x ∈ e.2, S x) → (∀ it ∈ l, S it) →
      ∀ e ∈ l.foldl (indexStep nameOf) m, ∀ x ∈ e.2, S x by
    intro e he x hx
    exact hgen items [] (· ∈ items) (by simp) (fun _ h => h) e he x hx
  intro l
  induction l with
  | nil => intro m S hm _ e he x hx; exact hm e he x hx
  | cons it rest ih =>
    intro m S hm hl e he x hx
    refine ih (indexStep nameOf m it) S ?_ (fun i hi => hl i (List.mem_cons_of_mem _ hi)) e he x hx
    intro e' he' x' hx'
    rcases mem_bucket_indexStep nameOf m it e' he' x' hx' with ⟨e'', he'', hx''⟩ | rfl
    · exact hm e'' he'' x' hx''
    · exact hl x' (List.mem_cons_self _ _)

theorem isSubstr_nil_left (l : Str) : isSubstr [] l = true := by
  cases l <;> rfl

theorem isPrefixOf_refl (l : Str) : l.isPrefixOf l = true := by
  induction l with
  | nil => rfl
  | cons a as ih => simp [List.isPrefixOf, ih]

theorem isSubstr_refl (l : Str) : isSubstr l l = true := by
  cases l with
  | nil => rfl
  | cons a as => simp [isSubstr, isPrefixOf_refl]

/-- An input record is present in the bucket of its own full normalized
name. -/
theorem mem_own_bucket {T : Type} [DecidableEq T] (nameOf : T → Str) (items : List T)
    (r : T) (hr : r ∈ items) :
    ∃ l, (createSearchIndex nameOf items).lookup (normalizeText (nameOf r)) = some l ∧
      r ∈ l := by
  have hocc := occCount_createSearchIndex nameOf items (normalizeText (nameOf r)) r
  have hpos : 0 < occCount (createSearchIndex nameOf items) (normalizeText (nameOf r)) r := by
    rw [hocc]
    have h1 : 0 < items.count r := List.count_pos_iff.mpr hr
    have h2 : 0 < recordKeyCount nameOf r (normalizeText (nameOf r)) := by
      unfold recordKeyCount
      simp
    exact Nat.mul_pos h1 h2
  unfold occCount bucketOf at hpos
  cases hl : (createSearchIndex nameOf items).lookup (normalizeText (nameOf r)) with
  | none => rw [hl] at hpos; simp at hpos
  | some l =>
    rw [hl] at hpos
    simp only [Option.getD_some] at hpos
    exact ⟨l, rfl, List.count_pos_iff.mp hpos⟩

/-- C5.  A query whose normalized form is empty matches every index key
(every string contains the empty substring), so `searchByName` returns
exactly the set of all records of the level, deduplicated. -/
theorem searchByName_empty_query {T : Type} [DecidableEq T] (nameOf : T → Str)
    (data : List T) (q : Str) (hq : normalizeText q = []) :
    (searchByName nameOf data q).Nodup ∧
      ∀ r, r ∈ searchByName nameOf data q ↔ r ∈ data := by
  constructor
  · exact collect_nodup _ [] List.nodup_nil
  · intro r
    unfold searchByName
    rw [mem_collect]
    simp only [List.mem_filter, false_or]
    constructor
    · rintro (h | ⟨e, ⟨he, _⟩, hr⟩)
      · simp at h
      · exact mem_bucket_createSearchIndex nameOf data e he r hr
    · intro hr
      obtain ⟨l, hl, hrl⟩ := mem_own_bucket nameOf data r hr
      have hent := lookup_mem _ _ _ hl
      refine Or.inr ⟨(normalizeText (nameOf r), l), ⟨hent, ?_⟩, hrl⟩
      rw [hq]
      simp [isSubstr_nil_left]

/-- Witness for C5 at a concrete input: the empty query over a two-province
dataset returns both records exactly once. -/
theorem searchByName_empty_query_witness :
    (searchByName Province.name
        [⟨"01".toList, "ha noi".toList⟩, ⟨"02".toList, "ha giang".toList⟩] "".toList).Nodup ∧
      ((⟨"01".toList, "ha noi".toList⟩ : Province) ∈ searchByName Province.name
          [⟨"01".toList, "ha noi".toList⟩, ⟨"02".toList, "ha giang".toList⟩] "".toList ↔
        (⟨"01".toList, "ha noi".toList⟩ : Province) ∈
          [(⟨"01".toList, "ha noi".toList⟩ : Province), ⟨"02".toList, "ha giang".toList⟩]) :=
  ⟨(searchByName_empty_query Province.name
      [⟨"01".toList, "ha noi".toList⟩, ⟨"02".toList, "ha giang".toList⟩] "".toList
      (by decide)).1,
    (searchByName_empty_query Province.name
      [⟨"01".toList, "ha noi".toList⟩, ⟨"02".toList, "ha giang".toList⟩] "".toList
      (by decide)).2 _⟩

/-! ### C6: idempotence of `normalizeText` and search recall -/

/-- Values of the lowercase table are never its keys (lowercase letters are
not uppercase letters). -/
theorem lowerTable_vals :
    lowerTable.all (fun p => (lowerTable.lookup p.2).isNone) = true := by decide

/-- Values of the accent table are keys of neither table (base ASCII
lowercase letters are neither uppercase nor accented). -/
theorem accentTable_vals :
    accentTable.all
      (fun p => (lowerTable.lookup p.2).isNone && (accentTable.lookup p.2).isNone) = true := by
  decide

/-- The accent table never maps whitespace or onto whitespace. -/
theorem accentTable_ws :
    accentTable.all (fun p => !isWsChar p.1 && !isWsChar p.2) = true := by decide

/-- A character produced by `deAccentChar ∘ toLowerChar` is a fixed point of
both `toLowerChar` and `deAccentChar`. -/
theorem norm_char_fix (c : Char) :
    toLowerChar (deAccentChar (toLowerChar c)) = deAccentChar (toLowerChar c) ∧
      deAccentChar (deAccentChar (toLowerChar c)) = deAccentChar (toLowerChar c) := by
  have hA := List.all_eq_true.mp lowerTable_vals
  have hB := List.all_eq_true.mp accentTable_vals
  have fix2 : ∀ u : Char, lowerTable.lookup u = none →
      toLowerChar (deAccentChar u) = deAccentChar u ∧
        deAccentChar (deAccentChar u) = deAccentChar u := by
    intro u hu
    cases ha : accentTable.lookup u with
    | none =>
      have hd : deAccentChar u = u := by simp [deAccentChar, applyCharTable, ha]
      rw [hd]
      exact ⟨by simp [toLowerChar, applyCharTable, hu],
        by simp [deAccentChar, applyCharTable, ha]⟩
    | some w =>
      have hd : deAccentChar u = w := by simp [deAccentChar, applyCharTable, ha]
      rw [hd]
      have hw := hB (u, w) (lookup_mem _ _ _ ha)
      simp only [Bool.and_eq_true, Option.isNone_iff_eq_none] at hw
      exact ⟨by simp [toLowerChar, applyCharTable, hw.1],
        by simp [deAccentChar, applyCharTable, hw.2]⟩
  cases hl : lowerTable.lookup c with
  | none =>
    have hu : toLowerChar c = c := by simp [toLowerChar, applyCharTable, hl]
    rw [hu]
    exact fix2 c hl
  | some v =>
    have hu : toLowerChar c = v := by simp [toLowerChar, applyCharTable, hl]
    rw [hu]
    have hv := hA (c, v) (lookup_mem _ _ _ hl)
    simp only [Option.isNone_iff_eq_none] at hv
    exact fix2 v hv

theorem mem_trimChars {x : Char} {l : Str} (h : x ∈ trimChars l) : x ∈ l := by
  unfold trimChars at h
  rw [List.mem_reverse] at h
  have h1 := (List.dropWhile_sublist isWsChar).subset h
  rw [List.mem_reverse] at h1
  exact (List.dropWhile_sublist isWsChar).subset h1

theorem normalizeText_chars {x : Char} {s : Str} (h : x ∈ normalizeText s) :
    ∃ c, x = deAccentChar (toLowerChar c) := by
  unfold normalizeText at h
  obtain ⟨y, hy, rfl⟩ := List.mem_map.mp h
  obtain ⟨c, _, rfl⟩ := List.mem_map.mp (mem_trimChars hy)
  exact ⟨c, rfl⟩

theorem map_toLower_normalizeText (s : Str) :
    (normalizeText s).map toLowerChar = normalizeText s := by
  conv_rhs => rw [← List.map_id (normalizeText s)]
  refine List.map_congr_left fun x hx => ?_
  obtain ⟨c, rfl⟩ := normalizeText_chars hx
  exact (norm_char_fix c).1

theorem map_deAccent_normalizeText (s : Str) :
    (normalizeText s).map deAccentChar = normalizeText s := by
  conv_rhs => rw [← List.map_id (normalizeText s)]
  refine List.map_congr_left fun x hx => ?_
  obtain ⟨c, rfl⟩ := normalizeText_chars hx
  exact (norm_char_fix c).2

theorem dropWhile_dropWhile (p : Char → Bool) (l : Str) :
    (l.dropWhile p).dropWhile p = l.dropWhile p := by
  induction l with
  | nil => rfl
  | cons a as ih =>
    by_cases h : p a = true
    · simp [List.dropWhile_cons, h, ih]
    · simp [List.dropWhile_cons, h]

theorem head?_dropWhile (p : Char → Bool) (l : Str) (c : Char)
    (h : (l.dropWhile p).head? = some c) : p c = false := by
  induction l with
  | nil => simp at h
  | cons a as ih =>
    by_cases ha : p a = true
    · rw [List.dropWhile_cons, if_pos ha] at h
      exact ih h
    · rw [List.dropWhile_cons, if_neg ha] at h
      simp only [List.head?_cons, Option.some.injEq] at h
      subst h
      simpa using ha

theorem dropWhile_eq_self_of_head {p : Char → Bool} {l : Str} {c : Char}
    (hh : l.head? = some c) (hc : p c = false) : l.dropWhile p = l := by
  cases l with
  | nil => rfl
  | cons a as =>
    simp only [List.head?_cons, Option.some.injEq] at hh
    subst hh
    simp [List.dropWhile_cons, hc]

theorem trimChars_trimChars (l : Str) : trimChars (trimChars l) = trimChars l := by
  have hq : trimChars l = ((l.dropWhile isWsChar).reverse.dropWhile isWsChar).reverse := rfl
  set d := l.dropWhile isWsChar with hd
  set q := d.reverse.dropWhile isWsChar with hqd
  have claimA : (q.reverse).dropWhile isWsChar = q.reverse := by
    cases hh : q.reverse.head? with
    | none =>
      rw [List.head?_eq_none_iff.mp hh]
      rfl
    | some c =>
      have hpre : q.reverse <+: d := by
        rw [← List.reverse_reverse d, List.reverse_prefix]
        exact List.dropWhile_suffix isWsChar
      obtain ⟨t, ht⟩ := hpre
      have hdh : d.head? = some c := by
        rw [← ht]
        cases hrq : q.reverse with
        | nil => rw [hrq] at hh; simp at hh
        | cons a as =>
          rw [hrq] at hh
          simp only [List.head?_cons, Option.some.injEq] at hh
          subst hh
          rfl
      have hc : isWsChar c = false := by
        apply head?_dropWhile isWsChar l c
        rw [← hd]
        exact hdh
      exact dropWhile_eq_self_of_head hh hc
  have claimB : q.dropWhile isWsChar = q := by
    rw [hqd]
    exact dropWhile_dropWhile isWsChar d.reverse
  rw [hq]
  show ((q.reverse.dropWhile isWsChar).reverse.dropWhile isWsChar).reverse = q.reverse
  rw [claimA, List.reverse_reverse, claimB]

theorem isWs_deAccent (c : Char) : isWsChar (deAccentChar c) = isWsChar c := by
  cases h : accentTable.lookup c with
  | none => simp [deAccentChar, applyCharTable, h]
  | some w =>
    have hw := (List.all_eq_true.mp accentTable_ws) (c, w) (lookup_mem _ _ _ h)
    simp only [Bool.and_eq_true, Bool.not_eq_true'] at hw
    simp [deAccentChar, applyCharTable, h, hw.1, hw.2]

theorem trimChars_map_deAccent (l : Str) :
    trimChars (l.map deAccentChar) = (trimChars l).map deAccentChar := by
  have hp : (isWsChar ∘ deAccentChar) = isWsChar := funext isWs_deAccent
  unfold trimChars
  rw [List.dropWhile_map, hp, ← List.map_reverse, List.dropWhile_map, hp, ← List.map_reverse]

/-- `normalizeText` is idempotent: its output is already lowercase,
accent-free and trimmed. -/
theorem normalizeText_idem (s : Str) :
    normalizeText (normalizeText s) = normalizeText s := by
  conv_lhs => rw [normalizeText]
  rw [map_toLower_normalizeText]
  have ht : trimChars (normalizeText s) = normalizeText s := by
    conv_lhs => rw [normalizeText]
    rw [trimChars_map_deAccent, trimChars_trimChars]
    rw [← normalizeText]
  rw [ht, map_deAccent_normalizeText]

/-- C6.  Search recall: every record is found by searching its own
normalized name — the full normalized name is always one of the record's
index keys, and `normalizeText` is idempotent, so the re-normalized query
equals that key and the bidirectional containment test succeeds. -/
theorem searchByName_recall {T : Type} [DecidableEq T] (nameOf : T → Str)
    (data : List T) (r : T) (hr : r ∈ data) :
    r ∈ searchByName nameOf data (normalizeText (nameOf r)) := by
  unfold searchByName
  rw [mem_collect]
  right
  obtain ⟨l, hl, hrl⟩ := mem_own_bucket nameOf data r hr
  refine ⟨(normalizeText (nameOf r), l), List.mem_filter.mpr ⟨lookup_mem _ _ _ hl, ?_⟩, hrl⟩
  rw [normalizeText_idem]
  simp [isSubstr_refl]

/-- Witness for C6 at a concrete input: searching for `normalize("Thành phố
Hà Nội")` finds the record of that name. -/
theorem searchByName_recall_witness :
    (⟨"01".toList, "Thành phố Hà Nội".toList⟩ : Province) ∈
      searchByName Province.name
        [⟨"01".toList, "Thành phố Hà Nội".toList⟩, ⟨"02".toList, "Hà Giang".toList⟩]
        (normalizeText "Thành phố Hà Nội".toList) :=
  searchByName_recall Province.name
    [⟨"01".toList, "Thành phố Hà Nội".toList⟩, ⟨"02".toList, "Hà Giang".toList⟩]
    ⟨"01".toList, "Thành phố Hà Nội".toList⟩ (by decide)

end VnProvinces
